import Mathlib

/-!
Verification development for the MCTS engine of `MCTS_Hollow_NoGo/agent.h`.

The C++ search core (`MCTS_player` and its nested `tree_node` / `tree`
classes) is embedded shallowly:

* `TreeNode` mirrors `MCTS_player::tree_node` (fields `role`, `move`,
  `wincount`, `visit_count`, `is_leaf`, `children`).  The C++ node also
  caches the configured exploration constant `expw`; since every node is
  constructed with the one constant of the agent, we pass it to `UCB_score`
  as an argument instead of storing a real number in every node.
* `std::map<action::place, shared_ptr<tree_node>>` becomes an association
  list keyed by `Act`.  The only observable difference is iteration order
  of ties, which no theorem below depends on.
* The board and action collaborators (`board.h` / `action.h`) are external
  to the spec's core; they are abstracted as a type `Board` together with
  a `GameIf` record providing `applyMove` (returning `some after` exactly
  when the move is legal) and the sentinel-action fact used by the code.
* Machine doubles of the UCB formula are modelled as real numbers; the
  exact integer statistics (`wincount`, `visit_count`) are `Int`/`Nat`.
* Randomness (rollout outcomes), wall-clock readings and the real-valued
  UCB argmax inside `selection` are modelled as explicit oracle
  parameters: `rollouts` gives the summed outcome of the rollout batch at
  an expansion, `timeO`/`timeO2` give the budget-check verdicts, and
  `policy` returns the move chosen among the legal ones (the C++ argmax
  always yields some legal move when one exists, because every reachable
  UCB score exceeds the `-999999` sentinel).
* The C++ recursion of `selection` is bounded by the game length; the
  embedding uses an explicit fuel parameter and returns `none` when the
  fuel runs out.
-/

/-- The two player colours, `board::black` / `board::white`. -/
inductive Piece where
  | black
  | white
deriving DecidableEq, Repr

/-- The opponent colour, as computed inline in `move_root` and `selection`. -/
def Piece.opp : Piece → Piece
  | .black => .white
  | .white => .black

/-- An `action`: either the empty / sentinel `action()` or a placement
`action::place(pos, who)`. -/
inductive Act where
  | empty
  | place (pos : Nat) (who : Piece)
deriving DecidableEq, Repr

/-- `WIN_WEIGHT` from agent.h. -/
def WIN_WEIGHT : Int := 2

/-- `EARLY_T` from agent.h. -/
def EARLY_T : Nat := 5000

/-- `INIT_TIME` from agent.h (milliseconds, modelled as a rational). -/
def INIT_TIME : ℚ := 300

/-- `MCTS_player::tree_node`: one search-tree vertex.  `INIT_WINRATE = 0`
and `visit_count = 0` at construction. -/
inductive TreeNode where
  | mk (role : Piece) (move : Act) (wincount : Int) (visit_count : Nat)
       (is_leaf : Bool) (children : List (Act × TreeNode))

def TreeNode.role : TreeNode → Piece
  | .mk r _ _ _ _ _ => r

def TreeNode.move : TreeNode → Act
  | .mk _ m _ _ _ _ => m

def TreeNode.wincount : TreeNode → Int
  | .mk _ _ w _ _ _ => w

def TreeNode.visit_count : TreeNode → Nat
  | .mk _ _ _ v _ _ => v

def TreeNode.is_leaf : TreeNode → Bool
  | .mk _ _ _ _ l _ => l

def TreeNode.children : TreeNode → List (Act × TreeNode)
  | .mk _ _ _ _ _ c => c

/-- The `tree_node(role, mv, exp_w)` constructor: fresh statistics. -/
def TreeNode.fresh (role : Piece) (mv : Act) : TreeNode :=
  .mk role mv 0 0 false []

/-- The root constructor `tree_node(role, exp_w)` (move is `action()`),
also `tree::reset_tree`. -/
def freshRoot (role : Piece) : TreeNode :=
  .mk role .empty 0 0 false []

/-- Lookup in the `children` map (`children.count` / `children[move]`). -/
def lookupChild : List (Act × TreeNode) → Act → Option TreeNode
  | [], _ => none
  | (k, t) :: rest, m => if k = m then some t else lookupChild rest m

/-- Replace the child stored under a present key. -/
def updateChild : List (Act × TreeNode) → Act → TreeNode → List (Act × TreeNode)
  | [], _, _ => []
  | (k, t) :: rest, m, t' =>
      if k = m then (m, t') :: rest else (k, t) :: updateChild rest m t'

def TreeNode.child? (t : TreeNode) (m : Act) : Option TreeNode :=
  lookupChild t.children m

def TreeNode.withChildren : TreeNode → List (Act × TreeNode) → TreeNode
  | .mk r m w v l _, c => .mk r m w v l c

/-- `tree_node::visit_record(result, leaf_parallel)`. -/
def TreeNode.visit_record : TreeNode → Int → Nat → TreeNode
  | .mk r m w v l c, result, lp => .mk r m (w + result) (v + max 1 lp) l c

/-- `tree_node::set_wincount(value, leaf_parallel)`: overwrites the
accumulator and still advances the visit count. -/
def TreeNode.set_wincount : TreeNode → Int → Nat → TreeNode
  | .mk r m _ v l c, value, lp => .mk r m value (v + max 1 lp) l c

/-- `tree_node::set_leaf()`. -/
def TreeNode.set_leaf : TreeNode → TreeNode
  | .mk r m w v _ c => .mk r m w v true c

/-- Descend from a node along a path of child keys. -/
def getNode : TreeNode → List Act → Option TreeNode
  | t, [] => some t
  | t, m :: p =>
    match lookupChild t.children m with
    | none => none
    | some c => getNode c p

/-- `tree::move_root(mv)`: take the existing child as the new root, or
install a fresh node carrying the opponent role of the old root. -/
def move_root (t : TreeNode) (mv : Act) : TreeNode :=
  match lookupChild t.children mv with
  | some c => c
  | none => TreeNode.fresh t.role.opp mv

/-- Fold of `tree_node::best_children()`: scan the children map keeping
the last child whose visit count is `>=` the best so far. -/
def bestChildrenGo : List (Act × TreeNode) → Act → Nat → Act
  | [], best, _ => best
  | (m, c) :: rest, best, bc =>
      if c.visit_count ≥ bc then bestChildrenGo rest m c.visit_count
      else bestChildrenGo rest best bc

/-- `tree_node::best_children()`: most-visited child (robust child rule). -/
def TreeNode.best_children (t : TreeNode) : Act :=
  bestChildrenGo t.children .empty 0

/-- Fold of `tree_node::highest_win_children()` (exact rational
win rate in place of the C++ double). -/
def highWinGo : List (Act × TreeNode) → Act → ℚ → Act
  | [], best, _ => best
  | (m, c) :: rest, best, bw =>
      if (c.wincount : ℚ) / (c.visit_count : ℚ) ≥ bw then
        highWinGo rest m ((c.wincount : ℚ) / (c.visit_count : ℚ))
      else highWinGo rest best bw

def TreeNode.highest_win_children (t : TreeNode) : Act :=
  highWinGo t.children .empty 0

/-- `tree_node::UCB_score(move, who)` with the node's cached exploration
constant passed explicitly.  Mirrors agent.h lines 344-365: a terminal
child returns its accumulator times 200; a missing child returns the
999 / 0 sentinels (the statements after that `return` are dead code);
otherwise the value term uses `p = (role == who ? 1 : -1)` where `role`
is the field of the node being asked, i.e. the parent. -/
noncomputable def TreeNode.UCB_score (t : TreeNode) (expw : ℝ) (m : Act)
    (who : Piece) : ℝ :=
  match lookupChild t.children m with
  | some ch =>
      if ch.is_leaf then (ch.wincount : ℝ) * 200
      else
        ((((if t.role = who then (1 : Int) else -1) * ch.wincount : Int) : ℝ) /
            (ch.visit_count : ℝ)) +
          expw * Real.sqrt (Real.log (t.visit_count : ℝ) / (ch.visit_count : ℝ))
  | none => if t.role = who then 999 else 0

/-- The claim's reading of the UCB value term, written from the spec's
words: the sign is `+1` exactly when the child's own acting role equals
the perspective role.  Used only to compare against the source formula. -/
noncomputable def UCB_score_childSign (t : TreeNode) (expw : ℝ) (m : Act)
    (who : Piece) : ℝ :=
  match lookupChild t.children m with
  | some ch =>
      ((((if ch.role = who then (1 : Int) else -1) * ch.wincount : Int) : ℝ) /
          (ch.visit_count : ℝ)) +
        expw * Real.sqrt (Real.log (t.visit_count : ℝ) / (ch.visit_count : ℝ))
  | none => 0

/-- The board / action collaborators (`board.h`, `action.h`) are outside
the search core.  `applyMove m b = some b'` models
`m.apply(b) == board::legal` with successor `b'`; `empty_illegal` records
that the sentinel `action()` is never a legal placement. -/
structure GameIf (Board : Type) where
  applyMove : Act → Board → Option Board
  empty_illegal : ∀ b, applyMove .empty b = none

/-- The configuration knobs of `MCTS_agent` that the search core reads. -/
structure Cfg where
  who : Piece
  lp : Nat
  sim_count : Nat
  if_early : Bool
  earlyc : Bool
  unst_N : Nat
  use_time : Bool

/-- Oracles for the effects the turn procedure consumes: summed rollout
batch outcomes, the wall-clock budget checks of the main and of the
stability loops, the time-scaled early margins and the wall time charged
at the end of the turn. -/
structure Oracles (Board : Type) where
  rollouts : Board → Int
  timeO : Nat → Bool
  timeO2 : Nat → Nat → Bool
  preThr : Int
  thrO : Nat → Int
  cost : ℚ

/-- The per-agent search state: the owned tree (its root), the board at
the end of the previous committed turn, the turn counter and the
remaining time budget. -/
structure AgentState (Board : Type) where
  tree : TreeNode
  last_board : Board
  turn : Nat
  remaining : ℚ

/-- Result of one `mcts_take_action` call: `fatal` models the
`exit(-1)` on a root-role mismatch; `out` carries the new agent state,
the returned action and the number of selection cycles performed. -/
inductive TurnResult (Board : Type) where
  | fatal
  | out (st : AgentState Board) (a : Act) (sims : Nat)

/-- The move space of a role: `space` / `oppo_space`
(`action::place(i, role)` for every cell). -/
def spaceFor (who : Piece) : List Act :=
  (List.range 81).map (fun i => Act.place i who)

/-- The legal moves of a space on a state, with their successor boards
(the `move.apply(after) == board::legal` filter of `selection`). -/
def legalAfter {Board : Type} (gi : GameIf Board) (sp : List Act)
    (b : Board) : List (Act × Board) :=
  sp.filterMap (fun m => (gi.applyMove m b).map (fun b' => (m, b')))

/-- `MCTS_player::selection` (agent.h lines 482-565), fuel-bounded.
`policy` abstracts the UCB argmax over the legal moves: it returns the
chosen move with its successor board, and `none` on the empty list
(the `best_score == -999999` case, which in the source happens exactly
when no move is legal, all reachable scores being greater than the
sentinel). -/
def selection {Board : Type} (cfg : Cfg) (gi : GameIf Board)
    (policy : TreeNode → List (Act × Board) → Option (Act × Board))
    (rollouts : Board → Int) :
    Nat → Board → TreeNode → Option (TreeNode × Act × Int)
  | 0, _, _ => none
  | fuel + 1, state, node =>
    let sp := if node.role = cfg.who.opp then spaceFor cfg.who.opp
              else spaceFor cfg.who
    match policy node (legalAfter gi sp state) with
    | none =>
        let win : Int :=
          if node.role = cfg.who.opp then
            ((node.visit_count + max 1 cfg.lp : Nat) : Int) * WIN_WEIGHT
          else 0
        some ((node.set_wincount win cfg.lp).set_leaf, .empty,
          if win ≠ 0 then WIN_WEIGHT else 0)
    | some (best, after) =>
        match node.child? best with
        | some ch =>
            match selection cfg gi policy rollouts fuel after ch with
            | none => none
            | some r =>
                some ((node.withChildren
                    (updateChild node.children best r.1)).visit_record r.2.2 cfg.lp,
                  best, r.2.2)
        | none =>
            let result := rollouts after
            let newCh := (TreeNode.fresh node.role.opp best).visit_record result cfg.lp
            some ((node.withChildren
                (node.children ++ [(best, newCh)])).visit_record result cfg.lp,
              best, result)

/-- Iterate `selection` from the same root state, as the simulation loop
does, threading the mutated tree. -/
def selN {Board : Type} (cfg : Cfg) (gi : GameIf Board)
    (policy : TreeNode → List (Act × Board) → Option (Act × Board))
    (rollouts : Board → Int) (fuel : Nat) (state : Board) :
    Nat → TreeNode → Option TreeNode
  | 0, t => some t
  | n + 1, t =>
    match selection cfg gi policy rollouts fuel state t with
    | none => none
    | some (t', _, _) => selN cfg gi policy rollouts fuel state n t'

/-- Fold of `MCTS_player::early`: scan the own move space, tracking the
largest and second largest child visit counts with their moves
(strict `>` comparisons, exactly as in the source). -/
def earlyGo (t : TreeNode) : List Act → Nat × Act × Nat × Act → Nat × Act × Nat × Act
  | [], acc => acc
  | m :: rest, (most, ma, second, sa) =>
    match lookupChild t.children m with
    | none => earlyGo t rest (most, ma, second, sa)
    | some c =>
        if c.visit_count > most then earlyGo t rest (c.visit_count, m, most, ma)
        else if c.visit_count > second then earlyGo t rest (most, ma, c.visit_count, m)
        else earlyGo t rest (most, ma, second, sa)

/-- `MCTS_player::early(node, thinking_time)` with the margin term made
explicit: the fixed variant uses `EARLY_T * max(1, leaf_parallel)`, the
`early_c` variant a wall-clock-dependent value supplied by an oracle.
Returns the leading move when its lead reaches the margin, else the
empty action. -/
def early (cfg : Cfg) (t : TreeNode) (thr : Int) : Act :=
  let acc := earlyGo t (spaceFor cfg.who) (0, .empty, 0, .empty)
  if (acc.2.2.1 : Int) ≤ (acc.1 : Int) - thr then acc.2.1 else .empty

/-- The margin of the fixed (`earlyc_p == 0`) early variant.  (The
`early_c` variant's real-valued margin is supplied by an oracle as the
integer it effectively compares against, visit counts being integers.) -/
def earlyThr0 (cfg : Cfg) : Int :=
  (EARLY_T : Int) * ((max 1 cfg.lp : Nat) : Int)

/-- The main simulation loop of `mcts_take_action` (agent.h lines
692-718): budget check, root terminal-leaf check, one `selection` pass,
optional in-loop `early_c` re-check.  Returns the tree, the last
selection move and the number of selection passes performed. -/
def simLoop {Board : Type} (cfg : Cfg) (gi : GameIf Board)
    (policy : TreeNode → List (Act × Board) → Option (Act × Board))
    (O : Oracles Board) (selFuel : Nat) (state : Board) (turn : Nat) :
    Nat → Nat → TreeNode → Act → Option (TreeNode × Act × Nat)
  | 0, i, t, mv => some (t, mv, i)
  | n + 1, i, t, mv =>
    if cfg.use_time = true ∧ O.timeO i = true then some (t, mv, i)
    else if t.is_leaf then some (t, .empty, i)
    else
      match selection cfg gi policy O.rollouts selFuel state t with
      | none => none
      | some (t', m, _) =>
          if cfg.earlyc = true ∧ 2 < turn ∧ early cfg t' (O.thrO i) ≠ .empty then
            some (t', m, i + 1)
          else simLoop cfg gi policy O selFuel state turn n (i + 1) t' m

/-- The inner simulation loop of the `unst` stability phase (agent.h
lines 727-743): like the main loop but with the half-budget wall-clock
check (oracle `timeO2 r`) and no `early_c` re-check. -/
def simLoopU {Board : Type} (cfg : Cfg) (gi : GameIf Board)
    (policy : TreeNode → List (Act × Board) → Option (Act × Board))
    (O : Oracles Board) (selFuel : Nat) (state : Board) (r : Nat) :
    Nat → Nat → TreeNode → Act → Option (TreeNode × Act × Nat)
  | 0, i, t, mv => some (t, mv, i)
  | n + 1, i, t, mv =>
    if cfg.use_time = true ∧ O.timeO2 r i = true then some (t, mv, i)
    else if t.is_leaf then some (t, .empty, i)
    else
      match selection cfg gi policy O.rollouts selFuel state t with
      | none => none
      | some (t', m, _) => simLoopU cfg gi policy O selFuel state r n (i + 1) t' m

/-- The `unst` stability phase (agent.h lines 721-748).  With
`unst_N = 0` it reduces to `move = best_children()`.  With a positive
count it repeats half-budget simulation bursts while the visit-count
choice and the win-rate choice disagree (`is_unstable`), then commits
`best_children()` of the final tree. -/
def unstPhase {Board : Type} (cfg : Cfg) (gi : GameIf Board)
    (policy : TreeNode → List (Act × Board) → Option (Act × Board))
    (O : Oracles Board) (selFuel : Nat) (state : Board) :
    Nat → TreeNode → Nat → Option (TreeNode × Act × Nat)
  | 0, t, s => some (t, t.best_children, s)
  | k + 1, t, s =>
    if t.highest_win_children ≠ t.best_children ∧ t.best_children ≠ .empty then
      match simLoopU cfg gi policy O selFuel state (k + 1) cfg.sim_count 0 t .empty with
      | none => none
      | some (t', _, s') => unstPhase cfg gi policy O selFuel state k t' (s + s')
    else some (t, t.best_children, s)

/-- The opponent-move reconciliation scan of `handle_oppo_turn`
(agent.h lines 568-578): the first opponent placement that is legal on
`last_board` and reproduces the observed `state`; the empty action if
none does. -/
def reconPred {Board : Type} [DecidableEq Board] (gi : GameIf Board)
    (last state : Board) : Act → Bool := fun m =>
  match gi.applyMove m last with
  | some b => decide (b = state)
  | none => false

def findOppoMove {Board : Type} [DecidableEq Board] (gi : GameIf Board)
    (who : Piece) (last : Board) (state : Board) : Act :=
  ((spaceFor who.opp).find? (reconPred gi last state)).getD .empty

/-- `MCTS_player::handle_oppo_turn` (agent.h lines 567-596): a
reconciliation miss resets the tree, the turn counter and the time
budget; a hit advances the root along the recovered move. -/
def handle_oppo_turn {Board : Type} [DecidableEq Board] (cfg : Cfg)
    (gi : GameIf Board) (st : AgentState Board) (state : Board) :
    AgentState Board :=
  let mv := findOppoMove gi cfg.who st.last_board state
  if mv = .empty then
    { tree := freshRoot cfg.who, last_board := st.last_board, turn := 0,
      remaining := INIT_TIME }
  else { st with tree := move_root st.tree mv }

/-- The turn-start state update of `mcts_take_action` (agent.h lines
661-673): reconcile the opponent move on a mid-game turn, or reset the
tree, turn counter and time budget on a fresh turn. -/
def turnInit {Board : Type} [DecidableEq Board] (cfg : Cfg)
    (gi : GameIf Board) (st : AgentState Board) (state : Board) :
    AgentState Board :=
  if st.turn ≠ 0 then handle_oppo_turn cfg gi st state
  else
    { tree := freshRoot cfg.who, last_board := st.last_board, turn := 0,
      remaining := INIT_TIME }

/-- The pre-loop `early` invocation (agent.h lines 684-690): the move it
returns when `if_early` is set, with the margin of the configured
variant; the empty action when `if_early` is off. -/
def preEarlyMove {Board : Type} (cfg : Cfg) (O : Oracles Board)
    (t : TreeNode) : Act :=
  if cfg.if_early then
    early cfg t (if cfg.earlyc then O.preThr else earlyThr0 cfg)
  else .empty

/-- The early phase plus the main loop (agent.h lines 683-718): when
`if_early` is set and the pre-loop `early` call yields a move, the loop
is skipped entirely (the `goto selection_end`); otherwise the loop runs. -/
def simPhase {Board : Type} (cfg : Cfg) (gi : GameIf Board)
    (policy : TreeNode → List (Act × Board) → Option (Act × Board))
    (O : Oracles Board) (selFuel : Nat) (state : Board) (turn : Nat)
    (t : TreeNode) : Option (TreeNode × Nat) :=
  if preEarlyMove cfg O t ≠ .empty then some (t, 0)
  else
    match simLoop cfg gi policy O selFuel state turn cfg.sim_count 0 t .empty with
    | none => none
    | some (t2, _, i) => some (t2, i)

/-- The tail of `mcts_take_action` (agent.h lines 754-768): advance the
root along the finally chosen move, then return it if it is legal on the
current board (recording the successor board and charging the elapsed
time), else return the empty action leaving `last_board` and the budget
untouched. -/
def finishTurn {Board : Type} (gi : GameIf Board) (O : Oracles Board)
    (st1 : AgentState Board) (state : Board) (t3 : TreeNode) (mv : Act)
    (sims : Nat) : TurnResult Board :=
  let t4 := move_root t3 mv
  match gi.applyMove mv state with
  | some after =>
      .out { tree := t4, last_board := after, turn := st1.turn,
             remaining := st1.remaining - O.cost } mv sims
  | none =>
      .out { tree := t4, last_board := st1.last_board, turn := st1.turn,
             remaining := st1.remaining } .empty sims

/-- `MCTS_player::mcts_take_action` (agent.h lines 646-769): turn-start
reconciliation / reset, turn increment, the fatal root-role check
(`exit(-1)` modelled as `fatal`), the early phase and main loop, the
`unst` phase choosing the committed move, and the closing root advance.
`none` means the fuel of the embedding ran out. -/
def bumpTurn {Board : Type} (st : AgentState Board) : AgentState Board :=
  { tree := st.tree, last_board := st.last_board, turn := st.turn + 1,
    remaining := st.remaining }

def mcts_take_action {Board : Type} [DecidableEq Board] (cfg : Cfg)
    (gi : GameIf Board)
    (policy : TreeNode → List (Act × Board) → Option (Act × Board))
    (O : Oracles Board) (selFuel : Nat) (st : AgentState Board)
    (state : Board) : Option (TurnResult Board) :=
  let st1 := bumpTurn (turnInit cfg gi st state)
  if st1.tree.role ≠ cfg.who then some .fatal
  else
    match simPhase cfg gi policy O selFuel state st1.turn st1.tree with
    | none => none
    | some (t2, s1) =>
        match unstPhase cfg gi policy O selFuel state cfg.unst_N t2 0 with
        | none => none
        | some (t3, mv, s2) =>
            some (finishTurn gi O st1 state t3 mv (s1 + s2))

/-- Which of the two early-stop keys appear among the constructor
arguments. -/
structure ArgsPresent where
  early : Bool
  early_c : Bool

/-- Models the `if_early` flag computation of the `MCTS_agent`
constructor (agent.h lines 134-144): the first conditional sets the flag
from the `early` key, and the second conditional then overwrites it
unconditionally from the `early_c` key (its else branch assigns `false`
regardless of the first result), so the final value depends only on
`early_c`. -/
def if_early_of (a : ArgsPresent) : Bool :=
  let fromEarly : Bool := if a.early then true else false
  let fromEarlyC : Bool := if a.early_c then true else false
  fromEarlyC

/-- Root role of a completed (non-fatal) turn result. -/
def rootRoleOf {Board : Type} : Option (TurnResult Board) → Option Piece
  | some (.out st _ _) => some st.tree.role
  | _ => none

/-- Selection-pass count of a completed turn result. -/
def simsOf {Board : Type} : Option (TurnResult Board) → Option Nat
  | some (.out _ _ s) => some s
  | _ => none

/-- Returned action of a completed turn result. -/
def actOf {Board : Type} : Option (TurnResult Board) → Option Act
  | some (.out _ a _) => some a
  | _ => none

theorem role_visit_record (t : TreeNode) (r : Int) (lp : Nat) :
    (t.visit_record r lp).role = t.role := by
  cases t; rfl

theorem wincount_visit_record (t : TreeNode) (r : Int) (lp : Nat) :
    (t.visit_record r lp).wincount = t.wincount + r := by
  cases t; rfl

theorem visit_count_visit_record (t : TreeNode) (r : Int) (lp : Nat) :
    (t.visit_record r lp).visit_count = t.visit_count + max 1 lp := by
  cases t; rfl

theorem is_leaf_visit_record (t : TreeNode) (r : Int) (lp : Nat) :
    (t.visit_record r lp).is_leaf = t.is_leaf := by
  cases t; rfl

theorem children_visit_record (t : TreeNode) (r : Int) (lp : Nat) :
    (t.visit_record r lp).children = t.children := by
  cases t; rfl

theorem role_set_wincount (t : TreeNode) (v : Int) (lp : Nat) :
    (t.set_wincount v lp).role = t.role := by
  cases t; rfl

theorem wincount_set_wincount (t : TreeNode) (v : Int) (lp : Nat) :
    (t.set_wincount v lp).wincount = v := by
  cases t; rfl

theorem visit_count_set_wincount (t : TreeNode) (v : Int) (lp : Nat) :
    (t.set_wincount v lp).visit_count = t.visit_count + max 1 lp := by
  cases t; rfl

theorem children_set_wincount (t : TreeNode) (v : Int) (lp : Nat) :
    (t.set_wincount v lp).children = t.children := by
  cases t; rfl

theorem role_set_leaf (t : TreeNode) : t.set_leaf.role = t.role := by
  cases t; rfl

theorem wincount_set_leaf (t : TreeNode) : t.set_leaf.wincount = t.wincount := by
  cases t; rfl

theorem visit_count_set_leaf (t : TreeNode) :
    t.set_leaf.visit_count = t.visit_count := by
  cases t; rfl

theorem is_leaf_set_leaf (t : TreeNode) : t.set_leaf.is_leaf = true := by
  cases t; rfl

theorem children_set_leaf (t : TreeNode) : t.set_leaf.children = t.children := by
  cases t; rfl

theorem role_withChildren (t : TreeNode) (c : List (Act × TreeNode)) :
    (t.withChildren c).role = t.role := by
  cases t; rfl

theorem visit_count_withChildren (t : TreeNode) (c : List (Act × TreeNode)) :
    (t.withChildren c).visit_count = t.visit_count := by
  cases t; rfl

theorem wincount_withChildren (t : TreeNode) (c : List (Act × TreeNode)) :
    (t.withChildren c).wincount = t.wincount := by
  cases t; rfl

theorem children_withChildren (t : TreeNode) (c : List (Act × TreeNode)) :
    (t.withChildren c).children = c := by
  cases t; rfl


theorem lookupChild_updateChild_sound (cs : List (Act × TreeNode)) (m : Act)
    (t' : TreeNode) (k : Act) (c : TreeNode)
    (h : lookupChild (updateChild cs m t') k = some c) :
    (k = m ∧ c = t') ∨ lookupChild cs k = some c := by
  induction cs with
  | nil => simp [updateChild, lookupChild] at h
  | cons hd rest ih =>
      obtain ⟨kh, th⟩ := hd
      simp only [updateChild] at h
      by_cases hk : kh = m
      · rw [if_pos hk] at h
        simp only [lookupChild] at h
        by_cases hkm : m = k
        · rw [if_pos hkm] at h
          exact Or.inl ⟨hkm.symm, (Option.some.inj h).symm⟩
        · rw [if_neg hkm] at h
          right
          simp only [lookupChild]
          rw [hk, if_neg hkm]
          exact h
      · rw [if_neg hk] at h
        simp only [lookupChild] at h
        by_cases hkk : kh = k
        · rw [if_pos hkk] at h
          right
          simp only [lookupChild]
          rw [if_pos hkk]
          exact h
        · rw [if_neg hkk] at h
          rcases ih h with h1 | h2
          · exact Or.inl h1
          · right
            simp only [lookupChild]
            rw [if_neg hkk]
            exact h2

theorem lookupChild_updateChild_ne (cs : List (Act × TreeNode)) (m : Act)
    (t' : TreeNode) (k : Act) (hk : k ≠ m) :
    lookupChild (updateChild cs m t') k = lookupChild cs k := by
  induction cs with
  | nil => rfl
  | cons hd rest ih =>
      obtain ⟨kh, th⟩ := hd
      simp only [updateChild]
      by_cases hkm : kh = m
      · rw [if_pos hkm]
        simp only [lookupChild]
        rw [if_neg (show ¬m = k from fun h => hk h.symm), hkm,
          if_neg (show ¬m = k from fun h => hk h.symm)]
      · rw [if_neg hkm]
        simp only [lookupChild]
        by_cases hkk : kh = k
        · rw [if_pos hkk, if_pos hkk]
        · rw [if_neg hkk, if_neg hkk]
          exact ih

theorem lookupChild_updateChild_eq (cs : List (Act × TreeNode)) (m : Act)
    (t' : TreeNode) (c : TreeNode) (h : lookupChild cs m = some c) :
    lookupChild (updateChild cs m t') m = some t' := by
  induction cs with
  | nil => simp [lookupChild] at h
  | cons hd rest ih =>
      obtain ⟨kh, th⟩ := hd
      simp only [updateChild]
      by_cases hkm : kh = m
      · rw [if_pos hkm]
        simp [lookupChild]
      · rw [if_neg hkm]
        simp only [lookupChild, if_neg hkm] at h ⊢
        exact ih h

theorem lookupChild_append_left (cs ds : List (Act × TreeNode)) (k : Act)
    (c : TreeNode) (h : lookupChild cs k = some c) :
    lookupChild (cs ++ ds) k = some c := by
  induction cs with
  | nil => simp [lookupChild] at h
  | cons hd rest ih =>
      obtain ⟨kh, th⟩ := hd
      rw [List.cons_append]
      simp only [lookupChild] at h ⊢
      by_cases hkk : kh = k
      · rw [if_pos hkk] at h ⊢
        exact h
      · rw [if_neg hkk] at h ⊢
        exact ih h

theorem lookupChild_append_sound (cs ds : List (Act × TreeNode)) (k : Act)
    (c : TreeNode) (h : lookupChild (cs ++ ds) k = some c) :
    lookupChild cs k = some c ∨ lookupChild ds k = some c := by
  induction cs with
  | nil => exact Or.inr h
  | cons hd rest ih =>
      obtain ⟨kh, th⟩ := hd
      rw [List.cons_append] at h
      simp only [lookupChild] at h ⊢
      by_cases hkk : kh = k
      · rw [if_pos hkk] at h ⊢
        exact Or.inl h
      · rw [if_neg hkk] at h ⊢
        exact ih h

/-- The parent-child role alternation invariant of the search tree:
every stored child acts as the opponent of its parent.  It holds for
fresh roots and is preserved by every tree operation of the engine. -/
inductive Alt : TreeNode → Prop where
  | intro (t : TreeNode)
      (hrole : ∀ m c, lookupChild t.children m = some c → c.role = t.role.opp)
      (hrec : ∀ m c, lookupChild t.children m = some c → Alt c) : Alt t

theorem Alt.lookup {t : TreeNode} (ha : Alt t) {m : Act} {c : TreeNode}
    (h : lookupChild t.children m = some c) : c.role = t.role.opp ∧ Alt c := by
  cases ha with
  | intro t hrole hrec => exact ⟨hrole m c h, hrec m c h⟩

theorem Alt_of_parts {t t' : TreeNode} (ha : Alt t)
    (hrole : t'.role = t.role) (hch : t'.children = t.children) : Alt t' := by
  refine Alt.intro t' (fun m c hc => ?_) (fun m c hc => ?_)
  · rw [hch] at hc
    rw [hrole]
    exact (ha.lookup hc).1
  · rw [hch] at hc
    exact (ha.lookup hc).2

theorem Alt_fresh (role : Piece) (mv : Act) : Alt (TreeNode.fresh role mv) := by
  refine Alt.intro _ (fun m c hc => ?_) (fun m c hc => ?_) <;>
    simp [TreeNode.fresh, lookupChild] at hc

theorem Alt_freshRoot (role : Piece) : Alt (freshRoot role) := by
  refine Alt.intro _ (fun m c hc => ?_) (fun m c hc => ?_) <;>
    simp [freshRoot, lookupChild] at hc

theorem getNode_cons (t : TreeNode) (m : Act) (p : List Act) (nn : TreeNode) :
    getNode t (m :: p) = some nn ↔
      ∃ c, lookupChild t.children m = some c ∧ getNode c p = some nn := by
  constructor
  · intro h
    simp only [getNode] at h
    cases hl : lookupChild t.children m with
    | none => rw [hl] at h; simp at h
    | some c => rw [hl] at h; exact ⟨c, rfl, h⟩
  · rintro ⟨c, hc, hg⟩
    simp only [getNode]
    rw [hc]
    exact hg

theorem selection_facts {Board : Type} (cfg : Cfg) (gi : GameIf Board)
    (policy : TreeNode → List (Act × Board) → Option (Act × Board))
    (rollouts : Board → Int) :
    ∀ (fuel : Nat) (state : Board) (t t' : TreeNode) (mv : Act) (res : Int),
      selection cfg gi policy rollouts fuel state t = some (t', mv, res) →
      t'.role = t.role ∧
      t'.visit_count = t.visit_count + max 1 cfg.lp ∧
      (∀ p n, getNode t p = some n →
        ∃ n', getNode t' p = some n' ∧ n.visit_count ≤ n'.visit_count) := by
  intro fuel
  induction fuel with
  | zero =>
      intro state t t' mv res h
      simp [selection] at h
  | succ n ih =>
      intro state t t' mv res h
      simp only [selection] at h
      split at h
      · -- no legal move: set_wincount + set_leaf
        rw [Option.some.injEq, Prod.mk.injEq, Prod.mk.injEq] at h
        obtain ⟨ht, _, _⟩ := h
        subst ht
        refine ⟨by rw [role_set_leaf, role_set_wincount], ?_, ?_⟩
        · rw [visit_count_set_leaf, visit_count_set_wincount]
        · intro p nn hp
          cases p with
          | nil =>
              simp only [getNode, Option.some.injEq] at hp
              subst hp
              refine ⟨_, rfl, ?_⟩
              rw [visit_count_set_leaf, visit_count_set_wincount]
              omega
          | cons m p' =>
              rw [getNode_cons] at hp
              obtain ⟨c, hc, hg⟩ := hp
              refine ⟨nn, ?_, le_refl _⟩
              rw [getNode_cons]
              refine ⟨c, ?_, hg⟩
              rw [children_set_leaf, children_set_wincount]
              exact hc
      · -- a legal move was chosen
        rename_i best after hpol
        split at h
        · -- existing child: recurse
          rename_i ch hch
          split at h
          · exact absurd h (by simp)
          · rename_i trip hrec
            rw [Option.some.injEq, Prod.mk.injEq, Prod.mk.injEq] at h
            obtain ⟨ht, _, hres⟩ := h
            subst ht
            obtain ⟨ihrole, ihvis, ihmono⟩ :=
              ih after ch trip.1 trip.2.1 trip.2.2 (by rw [hrec])
            have hchn : ∀ r lp,
                ((t.withChildren (updateChild t.children best trip.1)).visit_record
                  r lp).children = updateChild t.children best trip.1 := by
              intro r lp
              rw [children_visit_record, children_withChildren]
            refine ⟨by rw [role_visit_record, role_withChildren], ?_, ?_⟩
            · rw [visit_count_visit_record, visit_count_withChildren]
            · intro p nn hp
              cases p with
              | nil =>
                  simp only [getNode, Option.some.injEq] at hp
                  subst hp
                  refine ⟨_, rfl, ?_⟩
                  rw [visit_count_visit_record, visit_count_withChildren]
                  omega
              | cons m p' =>
                  rw [getNode_cons] at hp
                  obtain ⟨c, hc, hg⟩ := hp
                  by_cases hm : m = best
                  · subst hm
                    have hcch : c = ch := by
                      have := hch
                      rw [TreeNode.child?] at this
                      rw [this] at hc
                      exact (Option.some.inj hc).symm
                    subst hcch
                    obtain ⟨n', hn', hle⟩ := ihmono p' nn hg
                    refine ⟨n', ?_, hle⟩
                    rw [getNode_cons]
                    refine ⟨trip.1, ?_, hn'⟩
                    rw [hchn]
                    exact lookupChild_updateChild_eq _ _ _ _ hc
                  · refine ⟨nn, ?_, le_refl _⟩
                    rw [getNode_cons]
                    refine ⟨c, ?_, hg⟩
                    rw [hchn]
                    rw [lookupChild_updateChild_ne _ _ _ _ hm]
                    exact hc
        · -- new child: expand and roll out
          rename_i hch
          rw [Option.some.injEq, Prod.mk.injEq, Prod.mk.injEq] at h
          obtain ⟨ht, _, hres⟩ := h
          subst ht
          have hchn : ∀ r lp newc,
              ((t.withChildren (t.children ++ [(best, newc)])).visit_record
                r lp).children = t.children ++ [(best, newc)] := by
            intro r lp newc
            rw [children_visit_record, children_withChildren]
          refine ⟨by rw [role_visit_record, role_withChildren], ?_, ?_⟩
          · rw [visit_count_visit_record, visit_count_withChildren]
          · intro p nn hp
            cases p with
            | nil =>
                simp only [getNode, Option.some.injEq] at hp
                subst hp
                refine ⟨_, rfl, ?_⟩
                rw [visit_count_visit_record, visit_count_withChildren]
                omega
            | cons m p' =>
                rw [getNode_cons] at hp
                obtain ⟨c, hc, hg⟩ := hp
                refine ⟨nn, ?_, le_refl _⟩
                rw [getNode_cons]
                refine ⟨c, ?_, hg⟩
                rw [hchn]
                exact lookupChild_append_left _ _ _ _ hc

theorem role_fresh (r : Piece) (mv : Act) : (TreeNode.fresh r mv).role = r := rfl

theorem children_fresh (r : Piece) (mv : Act) :
    (TreeNode.fresh r mv).children = [] := rfl

theorem selection_alt {Board : Type} (cfg : Cfg) (gi : GameIf Board)
    (policy : TreeNode → List (Act × Board) → Option (Act × Board))
    (rollouts : Board → Int) :
    ∀ (fuel : Nat) (state : Board) (t t' : TreeNode) (mv : Act) (res : Int),
      selection cfg gi policy rollouts fuel state t = some (t', mv, res) →
      Alt t → Alt t' := by
  intro fuel
  induction fuel with
  | zero =>
      intro state t t' mv res h
      simp [selection] at h
  | succ n ih =>
      intro state t t' mv res h ha
      simp only [selection] at h
      split at h
      · rw [Option.some.injEq, Prod.mk.injEq, Prod.mk.injEq] at h
        obtain ⟨ht, _, _⟩ := h
        subst ht
        refine Alt_of_parts ha ?_ ?_
        · rw [role_set_leaf, role_set_wincount]
        · rw [children_set_leaf, children_set_wincount]
      · rename_i best after hpol
        split at h
        · rename_i ch hch
          split at h
          · exact absurd h (by simp)
          · rename_i trip hrec
            rw [Option.some.injEq, Prod.mk.injEq, Prod.mk.injEq] at h
            obtain ⟨ht, _, _⟩ := h
            subst ht
            have hch' : lookupChild t.children best = some ch := hch
            obtain ⟨hrole0, halt0⟩ := ha.lookup hch'
            have hrec' : selection cfg gi policy rollouts n after ch =
                some (trip.1, trip.2.1, trip.2.2) := by rw [hrec]
            have hrole1 : trip.1.role = ch.role :=
              (selection_facts cfg gi policy rollouts n after ch _ _ _ hrec').1
            have halt1 : Alt trip.1 := ih after ch _ _ _ hrec' halt0
            refine Alt.intro _ (fun m c hc => ?_) (fun m c hc => ?_)
            · rw [children_visit_record, children_withChildren] at hc
              rw [role_visit_record, role_withChildren]
              rcases lookupChild_updateChild_sound _ _ _ _ _ hc with ⟨_, hcc⟩ | hcc
              · rw [hcc, hrole1, hrole0]
              · exact (ha.lookup hcc).1
            · rw [children_visit_record, children_withChildren] at hc
              rcases lookupChild_updateChild_sound _ _ _ _ _ hc with ⟨_, hcc⟩ | hcc
              · rw [hcc]; exact halt1
              · exact (ha.lookup hcc).2
        · rename_i hch
          rw [Option.some.injEq, Prod.mk.injEq, Prod.mk.injEq] at h
          obtain ⟨ht, _, _⟩ := h
          subst ht
          refine Alt.intro _ (fun m c hc => ?_) (fun m c hc => ?_)
          · rw [children_visit_record, children_withChildren] at hc
            rw [role_visit_record, role_withChildren]
            rcases lookupChild_append_sound _ _ _ _ hc with hcc | hcc
            · exact (ha.lookup hcc).1
            · simp only [lookupChild] at hcc
              split at hcc
              · rw [(Option.some.inj hcc).symm, role_visit_record, role_fresh]
              · simp at hcc
          · rw [children_visit_record, children_withChildren] at hc
            rcases lookupChild_append_sound _ _ _ _ hc with hcc | hcc
            · exact (ha.lookup hcc).2
            · simp only [lookupChild] at hcc
              split at hcc
              · rw [(Option.some.inj hcc).symm]
                refine Alt.intro _ (fun m2 c2 hc2 => ?_) (fun m2 c2 hc2 => ?_) <;>
                  · rw [children_visit_record, children_fresh] at hc2
                    simp [lookupChild] at hc2
              · simp at hcc

theorem simLoop_pres {Board : Type} (cfg : Cfg) (gi : GameIf Board)
    (policy : TreeNode → List (Act × Board) → Option (Act × Board))
    (O : Oracles Board) (selFuel : Nat) (state : Board) (turn : Nat) :
    ∀ (n i : Nat) (t : TreeNode) (mv : Act) (t' : TreeNode) (mv' : Act) (i' : Nat),
      simLoop cfg gi policy O selFuel state turn n i t mv = some (t', mv', i') →
      (t'.role = t.role ∧ (Alt t → Alt t')) := by
  intro n
  induction n with
  | zero =>
      intro i t mv t' mv' i' h
      simp only [simLoop, Option.some.injEq, Prod.mk.injEq] at h
      obtain ⟨ht, _, _⟩ := h
      subst ht
      exact ⟨rfl, id⟩
  | succ n ih =>
      intro i t mv t' mv' i' h
      simp only [simLoop] at h
      split at h
      · rw [Option.some.injEq, Prod.mk.injEq, Prod.mk.injEq] at h
        obtain ⟨ht, _, _⟩ := h
        subst ht
        exact ⟨rfl, id⟩
      · split at h
        · rw [Option.some.injEq, Prod.mk.injEq, Prod.mk.injEq] at h
          obtain ⟨ht, _, _⟩ := h
          subst ht
          exact ⟨rfl, id⟩
        · split at h
          · exact absurd h (by simp)
          · rename_i t2 m2 r2 hsel
            have hr := (selection_facts cfg gi policy O.rollouts
              selFuel state t _ _ _ hsel).1
            have haltp := selection_alt cfg gi policy O.rollouts
              selFuel state t _ _ _ hsel
            split at h
            · rw [Option.some.injEq, Prod.mk.injEq, Prod.mk.injEq] at h
              obtain ⟨ht, _, _⟩ := h
              subst ht
              exact ⟨hr, haltp⟩
            · obtain ⟨hr2, halt2⟩ := ih _ _ _ _ _ _ h
              exact ⟨hr2.trans hr, fun ha => halt2 (haltp ha)⟩

theorem simLoopU_pres {Board : Type} (cfg : Cfg) (gi : GameIf Board)
    (policy : TreeNode → List (Act × Board) → Option (Act × Board))
    (O : Oracles Board) (selFuel : Nat) (state : Board) (r : Nat) :
    ∀ (n i : Nat) (t : TreeNode) (mv : Act) (t' : TreeNode) (mv' : Act) (i' : Nat),
      simLoopU cfg gi policy O selFuel state r n i t mv = some (t', mv', i') →
      (t'.role = t.role ∧ (Alt t → Alt t')) := by
  intro n
  induction n with
  | zero =>
      intro i t mv t' mv' i' h
      simp only [simLoopU, Option.some.injEq, Prod.mk.injEq] at h
      obtain ⟨ht, _, _⟩ := h
      subst ht
      exact ⟨rfl, id⟩
  | succ n ih =>
      intro i t mv t' mv' i' h
      simp only [simLoopU] at h
      split at h
      · rw [Option.some.injEq, Prod.mk.injEq, Prod.mk.injEq] at h
        obtain ⟨ht, _, _⟩ := h
        subst ht
        exact ⟨rfl, id⟩
      · split at h
        · rw [Option.some.injEq, Prod.mk.injEq, Prod.mk.injEq] at h
          obtain ⟨ht, _, _⟩ := h
          subst ht
          exact ⟨rfl, id⟩
        · split at h
          · exact absurd h (by simp)
          · rename_i t2 m2 r2 hsel
            have hr := (selection_facts cfg gi policy O.rollouts
              selFuel state t _ _ _ hsel).1
            have haltp := selection_alt cfg gi policy O.rollouts
              selFuel state t _ _ _ hsel
            obtain ⟨hr2, halt2⟩ := ih _ _ _ _ _ _ h
            exact ⟨hr2.trans hr, fun ha => halt2 (haltp ha)⟩

theorem unstPhase_pres {Board : Type} (cfg : Cfg) (gi : GameIf Board)
    (policy : TreeNode → List (Act × Board) → Option (Act × Board))
    (O : Oracles Board) (selFuel : Nat) (state : Board) :
    ∀ (k : Nat) (t : TreeNode) (s : Nat) (t' : TreeNode) (mv : Act) (s' : Nat),
      unstPhase cfg gi policy O selFuel state k t s = some (t', mv, s') →
      (t'.role = t.role ∧ (Alt t → Alt t')) := by
  intro k
  induction k with
  | zero =>
      intro t s t' mv s' h
      simp only [unstPhase, Option.some.injEq, Prod.mk.injEq] at h
      obtain ⟨ht, _, _⟩ := h
      subst ht
      exact ⟨rfl, id⟩
  | succ k ih =>
      intro t s t' mv s' h
      simp only [unstPhase] at h
      split at h
      · split at h
        · exact absurd h (by simp)
        · rename_i t2 m2 s2 hloop
          obtain ⟨hr1, halt1⟩ := simLoopU_pres cfg gi policy O selFuel state
            (k + 1) _ _ _ _ _ _ _ hloop
          obtain ⟨hr2, halt2⟩ := ih _ _ _ _ _ h
          exact ⟨hr2.trans hr1, fun ha => halt2 (halt1 ha)⟩
      · rw [Option.some.injEq, Prod.mk.injEq, Prod.mk.injEq] at h
        obtain ⟨ht, _, _⟩ := h
        subst ht
        exact ⟨rfl, id⟩

theorem move_root_role {t : TreeNode} (ha : Alt t) (mv : Act) :
    (move_root t mv).role = t.role.opp := by
  simp only [move_root]
  cases hl : lookupChild t.children mv with
  | none => exact role_fresh _ _
  | some c => exact (ha.lookup hl).1

theorem move_root_alt {t : TreeNode} (ha : Alt t) (mv : Act) :
    Alt (move_root t mv) := by
  simp only [move_root]
  cases hl : lookupChild t.children mv with
  | none => exact Alt_fresh _ _
  | some c => exact (ha.lookup hl).2

theorem selN_visit {Board : Type} (cfg : Cfg) (gi : GameIf Board)
    (policy : TreeNode → List (Act × Board) → Option (Act × Board))
    (rollouts : Board → Int) (fuel : Nat) (state : Board) :
    ∀ (N : Nat) (t0 tN : TreeNode),
      selN cfg gi policy rollouts fuel state N t0 = some tN →
      tN.visit_count = t0.visit_count + N * max 1 cfg.lp := by
  intro N
  induction N with
  | zero =>
      intro t0 tN h
      simp only [selN, Option.some.injEq] at h
      subst h
      simp
  | succ N ih =>
      intro t0 tN h
      simp only [selN] at h
      split at h
      · exact absurd h (by simp)
      · rename_i t1 mv r hsel
        have h1 := (selection_facts cfg gi policy rollouts fuel state t0 _ _ _ hsel).2.1
        have h2 := ih _ _ h
        rw [h2, h1]
        ring

theorem find?_unique {α : Type} (p : α → Bool) (m : α) :
    ∀ (l : List α), m ∈ l → p m = true → (∀ x ∈ l, p x = true → x = m) →
      l.find? p = some m := by
  intro l
  induction l with
  | nil =>
      intro hm
      simp at hm
  | cons a l ih =>
      intro hm hp huniq
      by_cases hpa : p a = true
      · have ha : a = m := huniq a (by simp) hpa
        rw [List.find?_cons_of_pos _ hpa, ha]
      · have hpa' : p a = false := by
          cases hq : p a
          · rfl
          · exact absurd hq hpa
        rw [List.find?_cons_of_neg _ (by simp [hpa'])]
        have hm' : m ∈ l := by
          rcases List.mem_cons.mp hm with h1 | h1
          · exact absurd (h1 ▸ hp) hpa
          · exact h1
        exact ih hm' hp (fun x hx hpx => huniq x (List.mem_cons_of_mem _ hx) hpx)

theorem empty_not_mem_spaceFor (r : Piece) : Act.empty ∉ spaceFor r := by
  simp [spaceFor]

theorem best_children_nil (t : TreeNode) (hch : t.children = []) :
    t.best_children = .empty := by
  simp [TreeNode.best_children, hch, bestChildrenGo]

theorem highest_win_children_nil (t : TreeNode) (hch : t.children = []) :
    t.highest_win_children = .empty := by
  simp [TreeNode.highest_win_children, hch, highWinGo]

theorem earlyGo_nil (t : TreeNode) (hch : t.children = []) :
    ∀ (l : List Act) (acc : Nat × Act × Nat × Act), earlyGo t l acc = acc := by
  intro l
  induction l with
  | nil => intro acc; rfl
  | cons m rest ih =>
      intro acc
      obtain ⟨a, b, c, d⟩ := acc
      simp only [earlyGo, hch, lookupChild]
      exact ih (a, b, c, d)

theorem early_nil (cfg : Cfg) (t : TreeNode) (thr : Int) (hch : t.children = []) :
    early cfg t thr = .empty := by
  simp only [early, earlyGo_nil t hch]
  split <;> rfl

theorem simLoop_leaf {Board : Type} (cfg : Cfg) (gi : GameIf Board)
    (policy : TreeNode → List (Act × Board) → Option (Act × Board))
    (O : Oracles Board) (selFuel : Nat) (state : Board) (turn : Nat) :
    ∀ (n i : Nat) (t : TreeNode) (mv : Act), t.is_leaf = true →
      ∃ mv' i', simLoop cfg gi policy O selFuel state turn n i t mv =
        some (t, mv', i') := by
  intro n
  cases n with
  | zero =>
      intro i t mv hleaf
      exact ⟨mv, i, rfl⟩
  | succ n =>
      intro i t mv hleaf
      by_cases htime : cfg.use_time = true ∧ O.timeO i = true
      · exact ⟨mv, i, by simp only [simLoop, if_pos htime]⟩
      · exact ⟨.empty, i, by simp [simLoop, htime, hleaf]⟩

theorem unstPhase_of_best_empty {Board : Type} (cfg : Cfg) (gi : GameIf Board)
    (policy : TreeNode → List (Act × Board) → Option (Act × Board))
    (O : Oracles Board) (selFuel : Nat) (state : Board) (k : Nat)
    (t : TreeNode) (s : Nat) (hb : t.best_children = .empty) :
    unstPhase cfg gi policy O selFuel state k t s = some (t, .empty, s) := by
  cases k with
  | zero => simp only [unstPhase, hb]
  | succ k =>
      simp only [unstPhase]
      rw [if_neg]
      · rw [hb]
      · rintro ⟨-, h2⟩
        exact h2 hb

theorem simPhase_pres {Board : Type} (cfg : Cfg) (gi : GameIf Board)
    (policy : TreeNode → List (Act × Board) → Option (Act × Board))
    (O : Oracles Board) (selFuel : Nat) (state : Board) (turn : Nat)
    (t t2 : TreeNode) (s1 : Nat)
    (h : simPhase cfg gi policy O selFuel state turn t = some (t2, s1)) :
    t2.role = t.role ∧ (Alt t → Alt t2) := by
  simp only [simPhase] at h
  split at h
  · rw [Option.some.injEq, Prod.mk.injEq] at h
    obtain ⟨ht, _⟩ := h
    subst ht
    exact ⟨rfl, id⟩
  · split at h
    · exact absurd h (by simp)
    · rename_i t3 mv3 i3 hloop
      rw [Option.some.injEq, Prod.mk.injEq] at h
      obtain ⟨ht, _⟩ := h
      subst ht
      exact simLoop_pres cfg gi policy O selFuel state turn _ _ _ _ _ _ _ hloop

theorem turnInit_alt {Board : Type} [DecidableEq Board] (cfg : Cfg)
    (gi : GameIf Board) (st : AgentState Board) (state : Board)
    (ha : Alt st.tree) : Alt (turnInit cfg gi st state).tree := by
  simp only [turnInit]
  split
  · simp only [handle_oppo_turn]
    split
    · exact Alt_freshRoot _
    · exact move_root_alt ha _
  · exact Alt_freshRoot _

theorem finishTurn_tree {Board : Type} (gi : GameIf Board) (O : Oracles Board)
    (st1 : AgentState Board) (state : Board) (t3 : TreeNode) (mv : Act)
    (sims : Nat) (st' : AgentState Board) (a : Act) (s : Nat)
    (h : finishTurn gi O st1 state t3 mv sims = .out st' a s) :
    st'.tree = move_root t3 mv := by
  simp only [finishTurn] at h
  split at h <;> (cases h; rfl)

theorem tree_bumpTurn {Board : Type} (st : AgentState Board) :
    (bumpTurn st).tree = st.tree := rfl

theorem turn_bumpTurn {Board : Type} (st : AgentState Board) :
    (bumpTurn st).turn = st.turn + 1 := rfl

theorem mcts_inv {Board : Type} [DecidableEq Board] (cfg : Cfg)
    (gi : GameIf Board)
    (policy : TreeNode → List (Act × Board) → Option (Act × Board))
    (O : Oracles Board) (selFuel : Nat) (st : AgentState Board)
    (state : Board) (r : TurnResult Board)
    (h : mcts_take_action cfg gi policy O selFuel st state = some r) :
    (¬(turnInit cfg gi st state).tree.role = cfg.who ∧ r = .fatal) ∨
    ((turnInit cfg gi st state).tree.role = cfg.who ∧
      ∃ t2 s1 t3 mv s2,
        simPhase cfg gi policy O selFuel state
          ((turnInit cfg gi st state).turn + 1)
          (turnInit cfg gi st state).tree = some (t2, s1) ∧
        unstPhase cfg gi policy O selFuel state cfg.unst_N t2 0 =
          some (t3, mv, s2) ∧
        r = finishTurn gi O (bumpTurn (turnInit cfg gi st state)) state t3 mv
          (s1 + s2)) := by
  simp only [mcts_take_action, tree_bumpTurn, turn_bumpTurn] at h
  split at h
  · rename_i hne
    left
    exact ⟨hne, (Option.some.inj h).symm⟩
  · rename_i hne
    right
    refine ⟨not_not.mp hne, ?_⟩
    split at h
    · exact absurd h (by simp)
    · rename_i t2 s1 hsim
      split at h
      · exact absurd h (by simp)
      · rename_i t3 mv s2 hunst
        exact ⟨t2, s1, t3, mv, s2, hsim, hunst, (Option.some.inj h).symm⟩

theorem finishTurn_empty {Board : Type} (gi : GameIf Board) (O : Oracles Board)
    (st1 : AgentState Board) (state : Board) (t3 : TreeNode) (sims : Nat) :
    finishTurn gi O st1 state t3 .empty sims =
      .out { tree := move_root t3 .empty, last_board := st1.last_board,
             turn := st1.turn, remaining := st1.remaining } .empty sims := by
  simp only [finishTurn, gi.empty_illegal]

theorem finishTurn_act {Board : Type} (gi : GameIf Board) (O : Oracles Board)
    (st1 : AgentState Board) (state : Board) (t3 : TreeNode) (mv : Act)
    (sims : Nat) (st' : AgentState Board) (a : Act) (s : Nat)
    (h : finishTurn gi O st1 state t3 mv sims = .out st' a s) (ha : a ≠ .empty) :
    ∃ after, gi.applyMove a state = some after := by
  simp only [finishTurn] at h
  split at h
  · rename_i after happ
    injection h with h1 h2 h3
    rw [← h2]
    exact ⟨after, happ⟩
  · injection h with h1 h2 h3
    exact absurd h2.symm ha

theorem finishTurn_ne_fatal {Board : Type} (gi : GameIf Board)
    (O : Oracles Board) (st1 : AgentState Board) (state : Board)
    (t3 : TreeNode) (mv : Act) (sims : Nat) :
    finishTurn gi O st1 state t3 mv sims ≠ .fatal := by
  simp only [finishTurn]
  split <;> simp

def childC1 : TreeNode := .mk .white (Act.place 0 .black) 2 1 false []

def nodeC1 : TreeNode := .mk .black .empty 0 1 false [(Act.place 0 .black, childC1)]

/-- C1 (counterexample): at a node of role black holding one visited,
non-terminal child of role white, scored from the black perspective, the
source formula uses the sign `+1` (the parent's role equals the
perspective), while the claim's child-role sign would give `-1`: the two
values differ (2 versus -2). -/
theorem C1_counterexample :
    nodeC1.UCB_score (1.44 : ℝ) (Act.place 0 .black) .black ≠
      UCB_score_childSign nodeC1 (1.44 : ℝ) (Act.place 0 .black) .black := by
  have hL : nodeC1.UCB_score (1.44 : ℝ) (Act.place 0 .black) .black = 2 := by
    simp [TreeNode.UCB_score, nodeC1, childC1, TreeNode.children, lookupChild,
      TreeNode.is_leaf, TreeNode.role, TreeNode.wincount, TreeNode.visit_count]
  have hR : UCB_score_childSign nodeC1 (1.44 : ℝ) (Act.place 0 .black) .black = -2 := by
    simp [UCB_score_childSign, nodeC1, childC1, TreeNode.children, lookupChild,
      TreeNode.is_leaf, TreeNode.role, TreeNode.wincount, TreeNode.visit_count]
  rw [hL, hR]
  norm_num

/-- C1 (amended): for an existing, non-terminal child the UCB score is
`sign * child.outcome_accumulator / child.visit_count
 + C * sqrt(log(node.visit_count) / child.visit_count)` where the sign
is `+1` exactly when the NODE's own role equals the perspective role;
under the parent-child role alternation of the engine's trees this means
`+1` exactly when the child's acting role does NOT equal the perspective
role (the converse of the claim's wording). -/
theorem C1_ucb_formula (t : TreeNode) (expw : ℝ) (m : Act) (w : Piece)
    (c : TreeNode) (hc : lookupChild t.children m = some c)
    (hl : c.is_leaf = false) :
    t.UCB_score expw m w =
      (((if t.role = w then (1 : Int) else -1) * c.wincount : Int) : ℝ) /
          (c.visit_count : ℝ) +
        expw * Real.sqrt (Real.log (t.visit_count : ℝ) / (c.visit_count : ℝ)) ∧
    ((∀ mm cc, lookupChild t.children mm = some cc → cc.role = t.role.opp) →
      ((t.role = w) ↔ ¬c.role = w)) := by
  constructor
  · simp only [TreeNode.UCB_score, hc, hl]
    simp
  · intro halt
    have hcr : c.role = t.role.opp := halt m c hc
    rw [hcr]
    generalize t.role = a
    cases a <;> cases w <;> simp [Piece.opp]

/-- Witness for C1: the amended formula evaluated at the concrete node
of the counterexample. -/
theorem C1_ucb_formula_witness :
    lookupChild nodeC1.children (Act.place 0 .black) = some childC1 ∧
    childC1.is_leaf = false ∧
    nodeC1.UCB_score (1.44 : ℝ) (Act.place 0 .black) .black =
      (((if nodeC1.role = Piece.black then (1 : Int) else -1) * childC1.wincount :
          Int) : ℝ) / (childC1.visit_count : ℝ) +
        (1.44 : ℝ) *
          Real.sqrt (Real.log (nodeC1.visit_count : ℝ) / (childC1.visit_count : ℝ)) :=
  ⟨rfl, rfl,
    (C1_ucb_formula nodeC1 (1.44 : ℝ) (Act.place 0 .black) .black childC1 rfl rfl).1⟩

def termC3 : TreeNode := .mk .white (Act.place 0 .black) 2 1 true []

def sibC3 : TreeNode := .mk .white (Act.place 1 .black) 0 1 false []

def nodeC3 : TreeNode :=
  .mk .black .empty 2 3 false
    [(Act.place 0 .black, termC3), (Act.place 1 .black, sibC3)]

/-- C3 (counterexample): with exploration constant `10^6 ≥ 0`, the UCB
score of a terminal-leaf child holding a win for self (400) does NOT
exceed the score of a non-terminal sibling, whose exploration term
`10^6 * sqrt(log 3)` is far larger: the claimed dominance fails for
large exploration constants. -/
theorem C3_counterexample :
    termC3.is_leaf = true ∧ sibC3.is_leaf = false ∧ ((0 : ℝ) ≤ 1000000) ∧
    nodeC3.UCB_score 1000000 (Act.place 0 .black) .black <
      nodeC3.UCB_score 1000000 (Act.place 1 .black) .black := by
  refine ⟨rfl, rfl, by norm_num, ?_⟩
  have hT : nodeC3.UCB_score 1000000 (Act.place 0 .black) .black = 400 := by
    simp [TreeNode.UCB_score, nodeC3, termC3, TreeNode.children, lookupChild,
      TreeNode.is_leaf, TreeNode.wincount]
    norm_num
  have hS : nodeC3.UCB_score 1000000 (Act.place 1 .black) .black =
      1000000 * Real.sqrt (Real.log 3) := by
    simp [TreeNode.UCB_score, nodeC3, sibC3, TreeNode.children, lookupChild,
      TreeNode.is_leaf, TreeNode.role, TreeNode.wincount, TreeNode.visit_count]
  rw [hT, hS]
  have hlog : (1 : ℝ) < Real.log 3 :=
    (Real.lt_log_iff_exp_lt (by norm_num : (0 : ℝ) < 3)).mpr
      (Real.exp_one_lt_d9.trans_le (by norm_num))
  have hsq : (1 : ℝ) ≤ Real.sqrt (Real.log 3) := by
    have h1 := Real.sqrt_le_sqrt hlog.le
    rw [Real.sqrt_one] at h1
    exact h1
  nlinarith [hsq]

/-- C3 (amended): the terminal-dominance property holds for every
exploration constant `C ≥ 0` whose exploration term at the sibling,
`C * sqrt(log(node.visit_count) / sibling.visit_count)`, stays below
398, provided the terminal child's accumulated outcome is a self win
(at least `WIN_WEIGHT = 2`) and the sibling satisfies the engine's
accounting bounds (`0 ≤ accumulator ≤ WIN_WEIGHT * visits`, one visit
or more); for unboundedly large exploration constants the dominance
fails (see the counterexample). -/
theorem C3_terminal_dominance (t cT cS : TreeNode) (mT mS : Act) (expw : ℝ)
    (w : Piece) (hT : lookupChild t.children mT = some cT)
    (hTl : cT.is_leaf = true) (hTw : (2 : Int) ≤ cT.wincount)
    (hS : lookupChild t.children mS = some cS) (hSl : cS.is_leaf = false)
    (hSv : 1 ≤ cS.visit_count) (hSw0 : (0 : Int) ≤ cS.wincount)
    (hSw : cS.wincount ≤ 2 * (cS.visit_count : Int)) (he : 0 ≤ expw)
    (hexp : expw * Real.sqrt (Real.log (t.visit_count : ℝ) /
      (cS.visit_count : ℝ)) < 398) :
    t.UCB_score expw mS w < t.UCB_score expw mT w := by
  have hTs : t.UCB_score expw mT w = (cT.wincount : ℝ) * 200 := by
    simp only [TreeNode.UCB_score, hT, hTl]
    simp
  have hSs : t.UCB_score expw mS w =
      (((if t.role = w then (1 : Int) else -1) * cS.wincount : Int) : ℝ) /
          (cS.visit_count : ℝ) +
        expw * Real.sqrt (Real.log (t.visit_count : ℝ) / (cS.visit_count : ℝ)) := by
    simp only [TreeNode.UCB_score, hS, hSl]
    simp
  rw [hTs, hSs]
  have hvc : (1 : ℝ) ≤ (cS.visit_count : ℝ) := by exact_mod_cast hSv
  have hvc0 : (0 : ℝ) < (cS.visit_count : ℝ) := by linarith
  have hwle : ((cS.wincount : Int) : ℝ) ≤ 2 * (cS.visit_count : ℝ) := by
    exact_mod_cast hSw
  have hw0 : (0 : ℝ) ≤ ((cS.wincount : Int) : ℝ) := by exact_mod_cast hSw0
  have hfrac : (((if t.role = w then (1 : Int) else -1) * cS.wincount : Int) : ℝ) /
      (cS.visit_count : ℝ) ≤ 2 := by
    rw [div_le_iff hvc0]
    by_cases hP : t.role = w
    · rw [if_pos hP]
      push_cast
      nlinarith
    · rw [if_neg hP]
      push_cast
      nlinarith
  have hTw' : (400 : ℝ) ≤ (cT.wincount : ℝ) * 200 := by
    have h2 : (2 : ℝ) ≤ (cT.wincount : ℝ) := by exact_mod_cast hTw
    nlinarith
  linarith

def nodeC3w : TreeNode :=
  .mk .black .empty 2 1 false
    [(Act.place 0 .black, termC3), (Act.place 1 .black, sibC3)]

/-- Witness for C3: at a parent with one visit (zero exploration term)
the terminal self-win child strictly dominates its non-terminal
sibling under the default exploration constant. -/
theorem C3_terminal_dominance_witness :
    (2 : Int) ≤ termC3.wincount ∧ (0 : ℝ) ≤ 1.44 ∧
    nodeC3w.UCB_score 1.44 (Act.place 1 .black) .black <
      nodeC3w.UCB_score 1.44 (Act.place 0 .black) .black := by
  refine ⟨by norm_num [termC3, TreeNode.wincount], by norm_num, ?_⟩
  refine C3_terminal_dominance nodeC3w termC3 sibC3 (Act.place 0 .black)
    (Act.place 1 .black) 1.44 .black rfl rfl (by norm_num [termC3, TreeNode.wincount])
    rfl rfl (by norm_num [sibC3, TreeNode.visit_count])
    (by norm_num [sibC3, TreeNode.wincount])
    (by norm_num [sibC3, TreeNode.wincount, TreeNode.visit_count])
    (by norm_num) ?_
  have hv : (nodeC3w.visit_count : ℝ) = 1 := by
    norm_num [nodeC3w, TreeNode.visit_count]
  rw [hv, Real.log_one, zero_div, Real.sqrt_zero]
  norm_num

/-- C2 (amended): within every completed (non-fatal) MCTS turn, the
root's role equals the agent's own role at the fatal check point right
after reconciliation (a turn only completes when that check passes),
and at the END of the completed turn the root — advanced past the
agent's own committed move — carries the OPPONENT's role, contrary to
the claim's wording. -/
theorem C2_root_role {Board : Type} [DecidableEq Board] (cfg : Cfg)
    (gi : GameIf Board)
    (policy : TreeNode → List (Act × Board) → Option (Act × Board))
    (O : Oracles Board) (selFuel : Nat) (st : AgentState Board)
    (state : Board) (st' : AgentState Board) (a : Act) (s : Nat)
    (halt : Alt st.tree)
    (h : mcts_take_action cfg gi policy O selFuel st state = some (.out st' a s)) :
    (turnInit cfg gi st state).tree.role = cfg.who ∧
    st'.tree.role = cfg.who.opp := by
  rcases mcts_inv cfg gi policy O selFuel st state _ h with
    ⟨hne, hfat⟩ | ⟨hrole, t2, s1, t3, mv, s2, hsim, hunst, hr⟩
  · exact absurd hfat (by simp)
  · refine ⟨hrole, ?_⟩
    have halt1 : Alt (turnInit cfg gi st state).tree :=
      turnInit_alt cfg gi st state halt
    obtain ⟨hr2, ha2⟩ := simPhase_pres cfg gi policy O selFuel state _ _ _ _ hsim
    obtain ⟨hr3, ha3⟩ := unstPhase_pres cfg gi policy O selFuel state _ _ _ _ _ _ hunst
    have halt3 : Alt t3 := ha3 (ha2 halt1)
    have hrole3 : t3.role = cfg.who := by rw [hr3, hr2, hrole]
    have htree : st'.tree = move_root t3 mv :=
      finishTurn_tree gi O _ state t3 mv (s1 + s2) st' a s hr.symm
    rw [htree, move_root_role halt3, hrole3]

/-- C7 (confirmed): advancing the root along a move with an existing
child makes exactly that child the new root — the whole subtree,
hence every descendant's statistics, role and leaf flag, is preserved —
while a move without a child installs a fresh opponent-role node with
zero visit count, zero accumulator, no leaf flag and no children. -/
theorem C7_move_root (t : TreeNode) (m : Act) :
    (∀ c, lookupChild t.children m = some c →
      move_root t m = c ∧ ∀ p, getNode (move_root t m) p = getNode c p) ∧
    (lookupChild t.children m = none →
      move_root t m = TreeNode.fresh t.role.opp m ∧
      (move_root t m).visit_count = 0 ∧ (move_root t m).wincount = 0 ∧
      (move_root t m).is_leaf = false ∧ (move_root t m).children = []) := by
  constructor
  · intro c hc
    have heq : move_root t m = c := by simp only [move_root, hc]
    exact ⟨heq, fun p => by rw [heq]⟩
  · intro hc
    have heq : move_root t m = TreeNode.fresh t.role.opp m := by
      simp only [move_root, hc]
    refine ⟨heq, ?_, ?_, ?_, ?_⟩ <;> rw [heq] <;> rfl

/-- C6 (confirmed): `visit_record` adds its result to the accumulator
and bumps the visit count by exactly `max(1, parallel_width)`; one
`selection` pass bumps the entry node's count by exactly that amount and
never decreases any node's count anywhere in the tree; `N` passes from
the same root add `N * max(1, parallel_width)` to its count. -/
theorem C6_visit_accounting {Board : Type} (cfg : Cfg) (gi : GameIf Board)
    (policy : TreeNode → List (Act × Board) → Option (Act × Board))
    (rollouts : Board → Int) :
    (∀ (t : TreeNode) (r : Int) (lp : Nat),
      (t.visit_record r lp).wincount = t.wincount + r ∧
      (t.visit_record r lp).visit_count = t.visit_count + max 1 lp) ∧
    (∀ (fuel : Nat) (state : Board) (t t' : TreeNode) (mv : Act) (res : Int),
      selection cfg gi policy rollouts fuel state t = some (t', mv, res) →
      t'.visit_count = t.visit_count + max 1 cfg.lp ∧
      (∀ p n, getNode t p = some n →
        ∃ n', getNode t' p = some n' ∧ n.visit_count ≤ n'.visit_count)) ∧
    (∀ (fuel : Nat) (state : Board) (N : Nat) (t0 tN : TreeNode),
      selN cfg gi policy rollouts fuel state N t0 = some tN →
      tN.visit_count = t0.visit_count + N * max 1 cfg.lp) := by
  refine ⟨?_, ?_, ?_⟩
  · intro t r lp
    exact ⟨wincount_visit_record t r lp, visit_count_visit_record t r lp⟩
  · intro fuel state t t' mv res h
    obtain ⟨-, h2, h3⟩ := selection_facts cfg gi policy rollouts fuel state t t' mv res h
    exact ⟨h2, h3⟩
  · intro fuel state N t0 tN h
    exact selN_visit cfg gi policy rollouts fuel state N t0 tN h

/-- C10 (confirmed): a selection pass reaching a node with no legal move
overwrites the accumulator through `set_wincount`, leaving it equal to
`visit_count * WIN_WEIGHT` when the node's role is the opponent (a win
for self) and `0` when it is self's own role, marks the node
terminal-leaf, bumps the visit count by `max(1, leaf_parallel)`, and
returns `WIN_WEIGHT` or `0` up the recursion — never the full
accumulated value. -/
theorem C10_no_legal_move {Board : Type} (cfg : Cfg) (gi : GameIf Board)
    (policy : TreeNode → List (Act × Board) → Option (Act × Board))
    (rollouts : Board → Int) (fuel : Nat) (state : Board) (t : TreeNode)
    (hleg : legalAfter gi (if t.role = cfg.who.opp then spaceFor cfg.who.opp
      else spaceFor cfg.who) state = [])
    (hpol : policy t [] = none) :
    ∀ t' mv ret,
      selection cfg gi policy rollouts (fuel + 1) state t = some (t', mv, ret) →
      mv = .empty ∧ t'.is_leaf = true ∧ t'.children = t.children ∧
      t'.visit_count = t.visit_count + max 1 cfg.lp ∧
      t'.wincount = (if t.role = cfg.who.opp then
        (t'.visit_count : Int) * WIN_WEIGHT else 0) ∧
      ret = (if t.role = cfg.who.opp then WIN_WEIGHT else 0) := by
  intro t' mv ret h
  simp only [selection] at h
  rw [hleg, hpol] at h
  rw [Option.some.injEq, Prod.mk.injEq, Prod.mk.injEq] at h
  obtain ⟨ht, hmv, hret⟩ := h
  subst ht
  refine ⟨hmv.symm, is_leaf_set_leaf _, ?_, ?_, ?_, ?_⟩
  · rw [children_set_leaf, children_set_wincount]
  · rw [visit_count_set_leaf, visit_count_set_wincount]
  · rw [wincount_set_leaf, wincount_set_wincount,
      visit_count_set_leaf, visit_count_set_wincount]
  · rw [← hret]
    by_cases hP : t.role = cfg.who.opp
    · rw [if_pos hP, if_pos hP, if_pos]
      have h1 : (1 : Int) ≤ ((t.visit_count + max 1 cfg.lp : Nat) : Int) := by
        have : 1 ≤ t.visit_count + max 1 cfg.lp := by omega
        exact_mod_cast this
      simp only [WIN_WEIGHT]
      intro hzero
      omega
    · rw [if_neg hP, if_neg hP]
      simp

theorem simPhase_leaf {Board : Type} (cfg : Cfg) (gi : GameIf Board)
    (policy : TreeNode → List (Act × Board) → Option (Act × Board))
    (O : Oracles Board) (selFuel : Nat) (state : Board) (turn : Nat)
    (t t2 : TreeNode) (s1 : Nat) (hleaf : t.is_leaf = true)
    (hch : t.children = [])
    (h : simPhase cfg gi policy O selFuel state turn t = some (t2, s1)) :
    t2 = t := by
  have hpre : preEarlyMove cfg O t = .empty := by
    simp only [preEarlyMove]
    split
    · exact early_nil cfg t _ hch
    · rfl
  rw [simPhase.eq_def, hpre] at h
  rw [if_neg (by simp)] at h
  obtain ⟨mv', i', hl⟩ :=
    simLoop_leaf cfg gi policy O selFuel state turn cfg.sim_count 0 t .empty hleaf
  rw [hl] at h
  rw [Option.some.injEq, Prod.mk.injEq] at h
  exact h.1.symm

/-- C4 (confirmed): on a mid-game turn, when the externally observed
board is the one produced by an opponent move `m` that is legal on
`last_board` (and `m` is the only legal opponent move reproducing it,
as placements are injective on boards), the turn start advances the
tree root exactly along `m` — taking the existing child, or creating a
fresh one — and resets nothing: tree, turn counter, last board and time
budget are otherwise untouched. -/
theorem C4_reconcile_hit {Board : Type} [DecidableEq Board] (cfg : Cfg)
    (gi : GameIf Board) (st : AgentState Board) (state : Board) (m : Act)
    (hturn : st.turn ≠ 0) (hm : m ∈ spaceFor cfg.who.opp)
    (happ : gi.applyMove m st.last_board = some state)
    (huniq : ∀ m' ∈ spaceFor cfg.who.opp, ∀ b',
      gi.applyMove m' st.last_board = some b' → b' = state → m' = m) :
    turnInit cfg gi st state = { st with tree := move_root st.tree m } ∧
    (∀ c, lookupChild st.tree.children m = some c →
      (turnInit cfg gi st state).tree = c) ∧
    (lookupChild st.tree.children m = none →
      (turnInit cfg gi st state).tree = TreeNode.fresh st.tree.role.opp m) := by
  have hp : reconPred gi st.last_board state m = true := by
    simp [reconPred, happ]
  have hu : ∀ x ∈ spaceFor cfg.who.opp,
      reconPred gi st.last_board state x = true → x = m := by
    intro x hx hpx
    cases happx : gi.applyMove x st.last_board with
    | none => simp [reconPred, happx] at hpx
    | some b =>
        simp only [reconPred, happx, decide_eq_true_eq] at hpx
        exact huniq x hx b happx hpx
  have hfind : findOppoMove gi cfg.who st.last_board state = m := by
    simp only [findOppoMove]
    rw [find?_unique (reconPred gi st.last_board state) m
      (spaceFor cfg.who.opp) hm hp hu]
    rfl
  have hne : m ≠ .empty := fun hcon => empty_not_mem_spaceFor cfg.who.opp (hcon ▸ hm)
  have h1 : turnInit cfg gi st state = { st with tree := move_root st.tree m } := by
    simp only [turnInit, if_pos hturn, handle_oppo_turn, hfind, if_neg hne]
  refine ⟨h1, ?_, ?_⟩
  · intro c hc
    rw [h1]
    simp only [move_root, hc]
  · intro hc
    rw [h1]
    simp only [move_root, hc]

/-- C8 (confirmed): a reconciliation miss on a mid-game turn is not an
error: the turn start resets the tree to a fresh root of the agent's own
role, resets the turn counter to zero and the budget to `INIT_TIME`,
keeps the recorded board, and the turn then proceeds as a fresh turn —
in particular the fatal role check cannot fire. -/
theorem C8_reset_on_miss {Board : Type} [DecidableEq Board] (cfg : Cfg)
    (gi : GameIf Board)
    (policy : TreeNode → List (Act × Board) → Option (Act × Board))
    (O : Oracles Board) (selFuel : Nat) (st : AgentState Board) (state : Board)
    (hturn : st.turn ≠ 0)
    (hmiss : ∀ m ∈ spaceFor cfg.who.opp, ∀ b',
      gi.applyMove m st.last_board = some b' → b' ≠ state) :
    turnInit cfg gi st state =
      { tree := freshRoot cfg.who, last_board := st.last_board, turn := 0,
        remaining := INIT_TIME } ∧
    ∀ r, mcts_take_action cfg gi policy O selFuel st state = some r →
      r ≠ .fatal := by
  have hnone : ((spaceFor cfg.who.opp).find? (reconPred gi st.last_board state)) =
      none := by
    apply List.find?_eq_none.mpr
    intro x hx
    cases happ : gi.applyMove x st.last_board with
    | none => simp [reconPred, happ]
    | some b =>
        simp only [reconPred, happ, decide_eq_true_eq]
        exact hmiss x hx b happ
  have hfind : findOppoMove gi cfg.who st.last_board state = .empty := by
    simp only [findOppoMove, hnone]
    rfl
  have h1 : turnInit cfg gi st state =
      { tree := freshRoot cfg.who, last_board := st.last_board, turn := 0,
        remaining := INIT_TIME } := by
    simp only [turnInit, if_pos hturn, handle_oppo_turn, hfind, if_pos rfl, if_true]
  refine ⟨h1, ?_⟩
  intro r h
  rcases mcts_inv cfg gi policy O selFuel st state r h with
    ⟨hne, -⟩ | ⟨-, t2, s1, t3, mv, s2, -, -, hr⟩
  · rw [h1] at hne
    exact absurd rfl hne
  · rw [hr]
    exact finishTurn_ne_fatal gi O _ state t3 mv (s1 + s2)

/-- C9 (confirmed): when the search faces a terminal state at the root —
the root is flagged terminal-leaf (with no children, as a node only
becomes a leaf when it has no legal continuation) — the completed turn
returns the empty sentinel action; and in any completed turn, a
non-empty returned action is legal on the current board, so an illegal
final choice also surfaces as the empty action, never as an error. -/
theorem C9_terminal_root {Board : Type} [DecidableEq Board] (cfg : Cfg)
    (gi : GameIf Board)
    (policy : TreeNode → List (Act × Board) → Option (Act × Board))
    (O : Oracles Board) (selFuel : Nat) :
    (∀ (st : AgentState Board) (state : Board),
      (turnInit cfg gi st state).tree.is_leaf = true →
      (turnInit cfg gi st state).tree.children = [] →
      (turnInit cfg gi st state).tree.role = cfg.who →
      ∀ r, mcts_take_action cfg gi policy O selFuel st state = some r →
        ∃ st' s, r = .out st' .empty s) ∧
    (∀ (st : AgentState Board) (state : Board) (st' : AgentState Board)
        (a : Act) (s : Nat),
      mcts_take_action cfg gi policy O selFuel st state = some (.out st' a s) →
      a ≠ .empty → ∃ after, gi.applyMove a state = some after) := by
  constructor
  · intro st state hleaf hch hrole r h
    rcases mcts_inv cfg gi policy O selFuel st state r h with
      ⟨hne, -⟩ | ⟨-, t2, s1, t3, mv, s2, hsim, hunst, hr⟩
    · exact absurd hrole hne
    · have ht2 : t2 = (turnInit cfg gi st state).tree :=
        simPhase_leaf cfg gi policy O selFuel state _ _ _ _ hleaf hch hsim
      rw [ht2, unstPhase_of_best_empty cfg gi policy O selFuel state _ _ _
        (best_children_nil _ hch)] at hunst
      rw [Option.some.injEq, Prod.mk.injEq, Prod.mk.injEq] at hunst
      obtain ⟨ht3, hmv, hs2⟩ := hunst
      rw [← ht3, ← hmv] at hr
      rw [finishTurn_empty] at hr
      exact ⟨_, _, hr⟩
  · intro st state st' a s h ha
    rcases mcts_inv cfg gi policy O selFuel st state _ h with
      ⟨-, hfat⟩ | ⟨-, t2, s1, t3, mv, s2, -, -, hr⟩
    · exact absurd hfat (by simp)
    · exact finishTurn_act gi O _ state t3 mv (s1 + s2) st' a s hr.symm ha

def headPolicy {Board : Type} : TreeNode → List (Act × Board) → Option (Act × Board) :=
  fun _ l => l.head?

def oracleZero {Board : Type} : Oracles Board :=
  { rollouts := fun _ => 2, timeO := fun _ => false, timeO2 := fun _ _ => false,
    preThr := 0, thrO := fun _ => 0, cost := 0 }

def cfg2 : Cfg :=
  { who := .black, lp := 0, sim_count := 1, if_early := false, earlyc := false,
    unst_N := 0, use_time := false }

def gi2 : GameIf Nat :=
  { applyMove := fun m b => if m = Act.place 0 .black ∧ b = 0 then some 1 else none,
    empty_illegal := fun b => by simp }

def st2 : AgentState Nat :=
  { tree := freshRoot .black, last_board := 0, turn := 0, remaining := INIT_TIME }

/-- C2 (counterexample): a completed first turn of a black MCTS agent —
one selection pass, legal committed move — ends with the search-tree
root carrying the WHITE (opponent) role, because the closing
`move_root` advances the root past the agent's own move; the claim that
a completed turn leaves the root with the agent's own role is false. -/
theorem C2_counterexample :
    rootRoleOf (mcts_take_action cfg2 gi2 headPolicy oracleZero 2 st2 0) =
      some Piece.white ∧ cfg2.who = Piece.black ∧ Piece.white ≠ Piece.black := by
  refine ⟨rfl, rfl, by decide⟩

/-- Witness for C2: the amended invariant applied to the concrete
completed turn of the counterexample — the role is the agent's own at
the post-reconciliation check and the opponent's at the end. -/
theorem C2_root_role_witness :
    Alt st2.tree ∧
    (turnInit cfg2 gi2 st2 0).tree.role = cfg2.who ∧
    rootRoleOf (mcts_take_action cfg2 gi2 headPolicy oracleZero 2 st2 0) =
      some cfg2.who.opp := by
  have halt : Alt st2.tree := Alt_freshRoot .black
  have h : mcts_take_action cfg2 gi2 headPolicy oracleZero 2 st2 0 =
      some (.out { tree := .mk .white (Act.place 0 .black) 2 1 false [],
                   last_board := 1, turn := 1, remaining := INIT_TIME - 0 }
        (Act.place 0 .black) 1) := rfl
  have h2 := C2_root_role cfg2 gi2 headPolicy oracleZero 2 st2 0 _ _ _ halt h
  refine ⟨halt, h2.1, ?_⟩
  rw [h]
  simp only [rootRoleOf]
  rw [← h2.2]

def giNone : GameIf Nat :=
  { applyMove := fun _ _ => none, empty_illegal := fun _ => rfl }

def giL : GameIf Nat :=
  { applyMove := fun m b => if m = Act.place 5 .white ∧ b = 0 then some 1 else none,
    empty_illegal := fun b => by simp }

def leafC9 : TreeNode := .mk .black (Act.place 5 .white) 4 7 true []

def rootC9 : TreeNode := .mk .white .empty 0 9 false [(Act.place 5 .white, leafC9)]

def stC9 : AgentState Nat :=
  { tree := rootC9, last_board := 0, turn := 1, remaining := INIT_TIME }

/-- Witness for C9: a mid-game turn whose reconciliation lands on a
terminal-leaf child with no children; the completed turn returns the
empty action. -/
theorem C9_terminal_root_witness :
    ((turnInit cfg2 giL stC9 1).tree.is_leaf = true ∧
      (turnInit cfg2 giL stC9 1).tree.children = [] ∧
      (turnInit cfg2 giL stC9 1).tree.role = cfg2.who) ∧
    actOf (mcts_take_action cfg2 giL headPolicy oracleZero 2 stC9 1) =
      some Act.empty := by
  refine ⟨⟨rfl, rfl, rfl⟩, ?_⟩
  have h : mcts_take_action cfg2 giL headPolicy oracleZero 2 stC9 1 =
      some (.out { tree := TreeNode.fresh .white .empty, last_board := 0,
                   turn := 2, remaining := INIT_TIME } .empty 0) := rfl
  obtain ⟨st', s, hout⟩ :=
    (C9_terminal_root cfg2 giL headPolicy oracleZero 2).1 stC9 1 rfl rfl rfl _ h
  rw [h, hout]
  rfl

/-- Witness for C7: advancing the root of a concrete tree along the move
of its stored child yields exactly that child. -/
theorem C7_move_root_witness :
    lookupChild rootC9.children (Act.place 5 .white) = some leafC9 ∧
    move_root rootC9 (Act.place 5 .white) = leafC9 :=
  ⟨rfl, ((C7_move_root rootC9 (Act.place 5 .white)).1 leafC9 rfl).1⟩

def gi4 : GameIf Nat :=
  { applyMove := fun m b => if m = Act.place 3 .white ∧ b = 0 then some 1 else none,
    empty_illegal := fun b => by simp }

def st4 : AgentState Nat :=
  { tree := freshRoot .black, last_board := 0, turn := 1, remaining := INIT_TIME }

/-- Witness for C4: with one legal opponent placement reproducing the
observed board, the turn start advances the root along exactly that
move without resetting anything. -/
theorem C4_reconcile_hit_witness :
    st4.turn ≠ 0 ∧
    gi4.applyMove (Act.place 3 .white) st4.last_board = some 1 ∧
    turnInit cfg2 gi4 st4 1 =
      { st4 with tree := move_root st4.tree (Act.place 3 .white) } := by
  refine ⟨by decide, rfl, ?_⟩
  refine (C4_reconcile_hit cfg2 gi4 st4 1 (Act.place 3 .white) (by decide)
    ?_ rfl ?_).1
  · simp only [spaceFor, List.mem_map]
    exact ⟨3, by simp, rfl⟩
  · intro m' hm' b' ha hb
    by_cases hc : m' = Act.place 3 .white
    · exact hc
    · exfalso
      have : gi4.applyMove m' st4.last_board = none := by
        simp only [gi4, st4]
        rw [if_neg]
        rintro ⟨h1, -⟩
        exact hc h1
      rw [this] at ha
      exact Option.noConfusion ha

def st8 : AgentState Nat :=
  { tree := rootC9, last_board := 0, turn := 1, remaining := 5 }

/-- Witness for C8: a mid-game turn on which no opponent move replays to
the observed board; the turn start resets tree, turn counter and time
budget. -/
theorem C8_reset_on_miss_witness :
    st8.turn ≠ 0 ∧
    turnInit cfg2 giNone st8 3 =
      { tree := freshRoot cfg2.who, last_board := 0, turn := 0,
        remaining := INIT_TIME } := by
  refine ⟨by decide, ?_⟩
  exact (C8_reset_on_miss cfg2 giNone headPolicy oracleZero 2 st8 3 (by decide)
    (fun m hm b' happ => by
      exact absurd happ (by simp [giNone]))).1

def treeC6 : TreeNode :=
  .mk .black .empty 2 1 false
    [(Act.place 0 .black, .mk .white (Act.place 0 .black) 2 1 false [])]

/-- Witness for C6: one selection cycle on a fresh root with
`leaf_parallel = 0` takes the root's visit count from 0 to exactly
`1 * max(1, 0) = 1`. -/
theorem C6_visit_accounting_witness :
    selN cfg2 gi2 headPolicy (fun _ => 2) 2 0 1 (freshRoot .black) = some treeC6 ∧
    treeC6.visit_count = (freshRoot .black).visit_count + 1 * max 1 cfg2.lp := by
  refine ⟨rfl, ?_⟩
  exact (C6_visit_accounting cfg2 gi2 headPolicy (fun _ => 2)).2.2 2 0 1 _ _ rfl

def nodeC10 : TreeNode := .mk .white .empty 7 4 false []

def nodeC10r : TreeNode := .mk .white .empty 10 5 true []

/-- Witness for C10: a node of the opponent's role with stale
accumulator 7 and four visits, no legal move available: the pass
overwrites the accumulator to `5 * WIN_WEIGHT = 10`, marks the leaf,
and returns `WIN_WEIGHT`, not 10. -/
theorem C10_no_legal_move_witness :
    legalAfter giNone (if nodeC10.role = cfg2.who.opp then spaceFor cfg2.who.opp
      else spaceFor cfg2.who) 0 = [] ∧
    selection cfg2 giNone headPolicy (fun _ => 2) 1 0 nodeC10 =
      some (nodeC10r, Act.empty, 2) ∧
    nodeC10r.wincount = (if nodeC10.role = cfg2.who.opp then
      (nodeC10r.visit_count : Int) * WIN_WEIGHT else 0) := by
  refine ⟨rfl, rfl, ?_⟩
  exact (C10_no_legal_move cfg2 giNone headPolicy (fun _ => 2) 0 0 nodeC10 rfl rfl
    nodeC10r Act.empty 2 rfl).2.2.2.2.1

def bigChild : TreeNode := .mk .white (Act.place 1 .black) 0 6000 false []

def midRoot : TreeNode :=
  .mk .black (Act.place 0 .white) 0 6000 false [(Act.place 1 .black, bigChild)]

def preRoot : TreeNode :=
  .mk .white .empty 0 6001 false [(Act.place 0 .white, midRoot)]

def st5 : AgentState Nat :=
  { tree := preRoot, last_board := 0, turn := 1, remaining := INIT_TIME }

def gi5 : GameIf Nat :=
  { applyMove := fun m b => if m = Act.place 0 .white ∧ b = 0 then some 1 else none,
    empty_illegal := fun b => by simp }

def cfg5 : Cfg :=
  { who := .black, lp := 0, sim_count := 1,
    if_early := if_early_of { early := true, early_c := false },
    earlyc := false, unst_N := 0, use_time := false }

/-- C5 (code bug): the constructor's second conditional unconditionally
overwrites `if_early`, so an agent configured with `early` but without
`early_c` ends up with the flag OFF; on a concrete mid-game turn whose
root satisfies the fixed early margin (a child ahead by more than
`EARLY_T * max(1, leaf_parallel)` visits) the early check would return
that child, yet the turn still performs a selection pass instead of
stopping — the spec's early-stop behaviour never runs in this
configuration. -/
theorem C5_early_flag_dead :
    if_early_of { early := true, early_c := false } = false ∧
    cfg5.if_early = false ∧
    early cfg5 (turnInit cfg5 gi5 st5 1).tree (earlyThr0 cfg5) =
      Act.place 1 .black ∧
    simsOf (mcts_take_action cfg5 gi5 headPolicy oracleZero 2 st5 1) =
      some 1 := by
  exact ⟨rfl, rfl, by decide, rfl⟩
